import Mathlib

/-!
Verification of the JSON-schema synthesis engine of `plone.restapi`
(`plone/restapi/types/utils.py`).

We shallowly embed the functions `get_form_fieldsets`, `iter_fields`,
`get_fieldset_infos`, `get_jsonschema_properties`, `get_widget_params`,
`get_jsonschema_for_fti` and `get_info_for_field`.

Modelling conventions:
* Python dicts of JSON values become association lists with Python dict
  assignment semantics (`odSet`: update in place keeps the original
  position of an existing key, a new key is appended at the end), which
  matches both `OrderedDict` and CPython 3.7+ `dict` insertion order.
* A z3c form field entry becomes a `Field` record carrying the schema
  field name (`field.field.getName()`), the form-widget name
  (`field.__name__`, used for the named adapter lookup), the mode, the
  required flag and the raw descriptor attributes read back by
  `get_info_for_field` via `getattr(field, attr, None)`.
* `queryMultiAdapter` / `getMultiAdapter` on `IJsonSchemaProvider`
  become a `Registry` of partial functions; an adapter is modelled by
  what it computes: its `get_schema()` output as a function of the
  `prefix` that the caller sets on it.  A failing `getMultiAdapter`
  (ComponentLookupError) and a failing dict subscript (KeyError) become
  the explicit errors of `PyErr`.
* The external collaborators excluded by the spec (the z3c/autoform
  form construction in `create_form`, `getAdditionalSchemata`, the
  translation service, `IJsonCompatible`) are abstracted: an `FTI`
  carries the `Form` that form construction would produce (`none` when
  `fti.lookupSchema()` raises `AttributeError`), translation is an
  arbitrary function `tr : String → String`, and `IJsonCompatible` is
  the identity on our already-JSON values.
* Python truthiness: `if prefix:` is `pre ≠ ""`, `if form_fields:` is
  non-emptiness, and a falsy `field.mode` (None or `""`) is `none`.
-/

namespace PloneRestapi

/-- JSON-compatible values, the payload of synthesized schema fragments. -/
inductive JValue where
  | null
  | bool (b : Bool)
  | num (n : Int)
  | str (s : String)
  | arr (xs : List JValue)
  | obj (kvs : List (String × JValue))

/-- A Python dict of JSON values, as an insertion-ordered association list. -/
abbrev OD := List (String × JValue)

/-- Python dict assignment `d[k] = v`: an existing key keeps its position and
gets the new value, a new key is appended at the end. -/
def odSet {α : Type} : List (String × α) → String → α → List (String × α)
  | [], k, v => [(k, v)]
  | (k', v') :: rest, k, v =>
    if k' = k then (k, v) :: rest else (k', v') :: odSet rest k v

/-- Python dict subscript `d[k]`, returning `none` where Python raises KeyError. -/
def odLookup {α : Type} : List (String × α) → String → Option α
  | [], _ => none
  | (k', v') :: rest, k => if k' = k then some v' else odLookup rest k

/-- Keys of an association list, in insertion order. -/
def odKeys {α : Type} (od : List (String × α)) : List String :=
  od.map Prod.fst

/-- One z3c form field entry as seen by the synthesis code: `name` is
`field.field.getName()`, `widgetName` is `field.__name__`, `mode` models a
truthy `field.mode` (`none` for a falsy one), `required` is
`field.field.required`, and the remaining attributes are the raw descriptor
values that `get_info_for_field` reads with `getattr(field, attr, None)`
(`interface` is already rendered through `str(...)` there). -/
structure Field where
  name : String
  widgetName : String
  mode : Option String
  required : Bool
  default : JValue
  defaultFactory : JValue
  interface : String
  max_length : JValue
  min_length : JValue
  missing_value : JValue
  order : JValue
  readonly : JValue

/-- A fieldset dict as produced by `get_form_fieldsets`. -/
structure Fieldset where
  id : String
  title : String
  fields : List Field

/-- A z3c form group: `name` is `group.__name__`. -/
structure Group where
  name : String
  label : String
  fields : List Field

/-- The processed form handed back by the external form-construction engine
(`create_form` + plone.autoform): its ordered default fields and its groups. -/
structure Form where
  fields : List Field
  groups : List Group

/-- The component registry for `IJsonSchemaProvider`: `named` models
`queryMultiAdapter(..., name=field.__name__)`, `unnamed` models
`getMultiAdapter(...)` (with `none` for ComponentLookupError).  An adapter is
modelled by its `get_schema()` result as a function of the prefix set on it. -/
structure Registry where
  named : String → Field → Option (String → OD)
  unnamed : Field → Option (String → OD)

/-- Python exceptions that the embedded code can raise. -/
inductive PyErr where
  | componentLookup
  | keyError
deriving DecidableEq

/-- Adapter resolution as performed inline in `get_jsonschema_properties`:
`adapter = queryMultiAdapter(..., name=field.__name__)` followed by
`adapter = adapter or getMultiAdapter(...)`. -/
def resolveAdapter (reg : Registry) (f : Field) : Option (String → OD) :=
  match reg.named f.widgetName f with
  | some a => some a
  | none => reg.unnamed f

/-- Key prefixing: `".".join([prefix, fieldname])` guarded by `if prefix:`. -/
def prefixed (pre fieldname : String) : String :=
  if pre = "" then fieldname else pre ++ "." ++ fieldname

/-- Flat field list of `iter_fields`: all fields of all fieldsets in order. -/
def iter_fields (fieldsets : List Fieldset) : List Field :=
  (fieldsets.map Fieldset.fields).flatten

/-- Properties mapping: field key to synthesized schema fragment. -/
abbrev Props := List (String × OD)

/-- Loop body of `get_jsonschema_properties` over the flat field list, with the
accumulated `properties` dict.  The `fname` match is tested before the
`excluded_fields` test, resets the accumulator to a singleton and returns;
otherwise a non-excluded field has its adapter resolved (named first, then
unnamed, ComponentLookupError when neither exists) and its possibly prefixed
key assigned. -/
def synth_go (reg : Registry) (pre : String) (excluded : List String)
    (fname : Option String) : List Field → Props → Except PyErr Props
  | [], properties => .ok properties
  | field :: rest, properties =>
    if fname = some field.name then
      match resolveAdapter reg field with
      | none => .error .componentLookup
      | some adapter => .ok (odSet [] (prefixed pre field.name) (adapter pre))
    else if field.name ∈ excluded then
      synth_go reg pre excluded fname rest properties
    else
      match resolveAdapter reg field with
      | none => .error .componentLookup
      | some adapter =>
        synth_go reg pre excluded fname rest
          (odSet properties (prefixed pre field.name) (adapter pre))

/-- Embedding of `get_jsonschema_properties(context, request, fieldsets,
prefix, excluded_fields, fname)`; context and request live inside `reg`. -/
def get_jsonschema_properties (reg : Registry) (fieldsets : List Fieldset)
    (pre : String) (excluded : List String) (fname : Option String) :
    Except PyErr Props :=
  synth_go reg pre excluded fname (iter_fields fieldsets) []

/-- Embedding of `get_form_fieldsets(form)`: a "default" fieldset out of
`form.fields` when that mapping is non-empty, then one fieldset per group in
the order the form exposes them.  `tr` is the external translation service. -/
def get_form_fieldsets (tr : String → String) (form : Form) : List Fieldset :=
  (if form.fields.isEmpty then []
   else [{ id := "default", title := tr "Default", fields := form.fields }])
  ++ form.groups.map (fun g => { id := g.name, title := tr g.label, fields := g.fields })

/-- A fieldset info dict: the fieldset with field names instead of fields. -/
structure FieldsetInfo where
  id : String
  title : String
  fields : List String
deriving DecidableEq

/-- Embedding of `get_fieldset_infos(fieldsets)`. -/
def get_fieldset_infos (fieldsets : List Fieldset) : List FieldsetInfo :=
  fieldsets.map (fun fs =>
    { id := fs.id, title := fs.title, fields := fs.fields.map Field.name })

/-- Required-field loop of `get_jsonschema_for_fti`: the (unprefixed) names of
all fields whose `field.field.required` flag is set, in traversal order. -/
def required_names : List Field → List String
  | [] => []
  | f :: rest =>
    if f.required then f.name :: required_names rest else required_names rest

/-- Mode loop of `get_jsonschema_for_fti`:
`properties[field.field.getName()]["mode"] = field.mode` for every field with
a truthy mode; the subscript raises KeyError when the key is absent. -/
def apply_field_modes : List Field → Props → Except PyErr Props
  | [], properties => .ok properties
  | f :: rest, properties =>
    match f.mode with
    | none => apply_field_modes rest properties
    | some m =>
      match odLookup properties f.name with
      | none => .error .keyError
      | some od =>
        apply_field_modes rest (odSet properties f.name (odSet od "mode" (.str m)))

/-- A type definition: `form` is the processed form that `fti.lookupSchema()`
plus form construction would yield, `none` when `lookupSchema` raises
`AttributeError`; `title` is `fti.Title()` and `view_methods` the layouts. -/
structure FTI where
  form : Option Form
  title : String
  view_methods : List String

/-- The fieldsets a facade entry point derives from an FTI: empty on a schema
lookup failure, otherwise the form's fieldsets (`get_fieldsets`). -/
def fti_fieldsets (tr : String → String) (fti : FTI) : List Fieldset :=
  match fti.form with
  | none => []
  | some form => get_form_fieldsets tr form

/-- The JSON schema document assembled by `get_jsonschema_for_fti`. -/
structure JsonSchemaDoc where
  typ : String
  title : String
  properties : Props
  required : List String
  fieldsets : List FieldsetInfo
  layouts : List String

/-- Embedding of `get_jsonschema_for_fti(fti, context, request,
excluded_fields)`: properties via the synthesizer with empty prefix and no
`fname`, the required list, the field-mode pass, and the final document. -/
def get_jsonschema_for_fti (reg : Registry) (tr : String → String) (fti : FTI)
    (excluded : List String) : Except PyErr JsonSchemaDoc :=
  let fieldsets := fti_fieldsets tr fti
  match get_jsonschema_properties reg fieldsets "" excluded none with
  | .error e => .error e
  | .ok properties =>
    match apply_field_modes (iter_fields fieldsets) properties with
    | .error e => .error e
    | .ok properties =>
      .ok { typ := "object"
            title := tr fti.title
            properties := properties
            required := required_names (iter_fields fieldsets)
            fieldsets := get_fieldset_infos fieldsets
            layouts := fti.view_methods }

/-- A widget parameter value: either a plain literal or a callable (a deferred
computation, detected by `callable(v)` in the source). -/
inductive PValue where
  | lit (v : JValue)
  | thunk (f : Unit → JValue)

/-- One resolution step of `get_widget_params`: `if callable(v): v = v()`. -/
def resolve_value : PValue → PValue
  | .lit v => .lit v
  | .thunk f => .lit (f ())

/-- Resolution of one widget's `params` dict. -/
def resolve_widget_params (ps : List (String × PValue)) : List (String × PValue) :=
  ps.map (fun kv => (kv.1, resolve_value kv.2))

/-- One schema as consumed by `get_widget_params`: its field names (iteration
order of `for field_name in schema`) and its merged tagged widget values,
where `some ps` models a widget providing `IParameterizedWidget` with params
`ps` and `none` a widget that does not. -/
structure WSchema where
  fields : List String
  widgets : List (String × Option (List (String × PValue)))

/-- Inner loop of `get_widget_params` for one schema: for each field name, if
its tagged widget is parameterized and has truthy params, assign the resolved
params under the field name. -/
def widget_params_step (params : List (String × List (String × PValue)))
    (schema : WSchema) : List (String × List (String × PValue)) :=
  schema.fields.foldl
    (fun params field_name =>
      match odLookup schema.widgets field_name with
      | some (some ps) =>
        if ps.isEmpty then params
        else odSet params field_name (resolve_widget_params ps)
      | _ => params)
    params

/-- Embedding of `get_widget_params(schemas)`: absent (`none`) schemas are
skipped by `if not schema: continue`, the rest processed in order. -/
def get_widget_params (schemas : List (Option WSchema)) :
    List (String × List (String × PValue)) :=
  schemas.foldl
    (fun params s =>
      match s with
      | none => params
      | some schema => widget_params_step params schema)
    []

/-- Result of `get_info_for_field`: a fieldset info, a decorated single-field
properties dict, or the not-found marker dict. -/
inductive FieldInfoResult where
  | fieldsetInfo (fi : FieldsetInfo)
  | fieldInfo (p : Props)
  | notFound (message : String)

/-- The decoration block of `get_info_for_field`: the nine
`properties[field_name][attr] = getattr(field, attr, None)` assignments on the
synthesized schema of the matched field (`field = field.field`). -/
def decorate_field_info (f : Field) (od : OD) : OD :=
  odSet (odSet (odSet (odSet (odSet (odSet (odSet (odSet (odSet od
    "default" f.default)
    "defaultFactory" f.defaultFactory)
    "interface" (.str f.interface))
    "max_length" f.max_length)
    "min_length" f.min_length)
    "missing_value" f.missing_value)
    "order" f.order)
    "readonly" f.readonly)
    "required" (.bool f.required)

/-- Outer loop of `get_info_for_field` over the fieldsets: per fieldset, first
the id test, then the scan of the fieldset's fields for a name match; a field
match synthesizes just that field (`fname=field_name`) over this single
fieldset and decorates it; no match anywhere yields the marker dict. -/
def info_go (reg : Registry) (field_name : String) :
    List Fieldset → Except PyErr FieldInfoResult
  | [] => .ok (.notFound "No entry could be found for the supplied name.")
  | fs :: rest =>
    if fs.id = field_name then
      .ok (.fieldsetInfo
        { id := fs.id, title := fs.title, fields := fs.fields.map Field.name })
    else
      match fs.fields.find? (fun fl => fl.name == field_name) with
      | some fl =>
        match get_jsonschema_properties reg [fs] "" [] (some field_name) with
        | .error e => .error e
        | .ok properties =>
          match odLookup properties field_name with
          | none => .error .keyError
          | some od =>
            .ok (.fieldInfo (odSet properties field_name (decorate_field_info fl od)))
      | none => info_go reg field_name rest

/-- Embedding of `get_info_for_field(portal_type, field_name, context,
request)`, with the portal-type registry lookup abstracted into the `fti`
argument and `IJsonCompatible` the identity. -/
def get_info_for_field (reg : Registry) (tr : String → String) (fti : FTI)
    (field_name : String) : Except PyErr FieldInfoResult :=
  info_go reg field_name (fti_fieldsets tr fti)

/-! ### Specification-side helper definitions -/

/-- The schema fragment an adapter would synthesize for a field (the empty
dict as a don't-care value when no adapter is registered). -/
def adapter_schema (reg : Registry) (pre : String) (f : Field) : OD :=
  match resolveAdapter reg f with
  | some a => a pre
  | none => []

/-- Total restatement of the non-`fname` synthesis loop, defined only for
success runs (every needed adapter present). -/
def synth_fold (reg : Registry) (pre : String) (excluded : List String) :
    List Field → Props → Props
  | [], properties => properties
  | f :: rest, properties =>
    if f.name ∈ excluded then synth_fold reg pre excluded rest properties
    else
      synth_fold reg pre excluded rest
        (odSet properties (prefixed pre f.name) (adapter_schema reg pre f))

/-- The keys the synthesizer assigns, in traversal order (with repetitions):
the prefixed names of the non-excluded fields. -/
def emitted_keys (pre : String) (excluded : List String) : List Field → List String
  | [] => []
  | f :: rest =>
    if f.name ∈ excluded then emitted_keys pre excluded rest
    else prefixed pre f.name :: emitted_keys pre excluded rest

/-- Dict-key accumulation: an existing key leaves the key list unchanged, a
new key is appended. -/
def insertKey (ks : List String) (k : String) : List String :=
  if k ∈ ks then ks else ks ++ [k]

/-- First-seen deduplication of a key sequence, preserving first positions. -/
def firstSeen (names : List String) : List String :=
  names.foldl insertKey []

/-- Total restatement of the field-mode loop for success runs. -/
def modes_fold : List Field → Props → Props
  | [], properties => properties
  | f :: rest, properties =>
    match f.mode with
    | none => modes_fold rest properties
    | some m =>
      match odLookup properties f.name with
      | none => modes_fold rest properties
      | some od => modes_fold rest (odSet properties f.name (odSet od "mode" (.str m)))

/-- Names of the fields the mode loop writes to. -/
def moded_names : List Field → List String
  | [] => []
  | f :: rest =>
    match f.mode with
    | none => moded_names rest
    | some _ => f.name :: moded_names rest

/-! ### Dictionary lemmas -/

theorem odKeys_odSet {α : Type} (od : List (String × α)) (k : String) (v : α) :
    odKeys (odSet od k v) = insertKey (odKeys od) k := by
  induction od with
  | nil => simp [odSet, odKeys, insertKey]
  | cons hd tl ih =>
    obtain ⟨k', v'⟩ := hd
    by_cases h : k' = k
    · subst h
      simp [odSet, odKeys, insertKey]
    · simp only [odSet, if_neg h, odKeys, List.map_cons, insertKey] at *
      by_cases hk : k ∈ odKeys tl
      · simp [odKeys] at hk
        simp [hk, ih, insertKey, odKeys]
      · simp [odKeys] at hk
        simp [hk, Ne.symm h, ih, insertKey, odKeys]

theorem mem_odKeys_odSet {α : Type} (od : List (String × α)) (k k' : String) (v : α)
    (h : k' ∈ odKeys (odSet od k v)) : k' ∈ odKeys od ∨ k' = k := by
  rw [odKeys_odSet] at h
  unfold insertKey at h
  by_cases hk : k ∈ odKeys od
  · rw [if_pos hk] at h; exact Or.inl h
  · rw [if_neg hk] at h
    rcases List.mem_append.mp h with h' | h'
    · exact Or.inl h'
    · exact Or.inr (List.mem_singleton.mp h')

theorem odLookup_odSet_self {α : Type} (od : List (String × α)) (k : String) (v : α) :
    odLookup (odSet od k v) k = some v := by
  induction od with
  | nil => simp [odSet, odLookup]
  | cons hd tl ih =>
    obtain ⟨k', v'⟩ := hd
    by_cases h : k' = k
    · subst h; simp [odSet, odLookup]
    · simp [odSet, odLookup, h, ih]

theorem odLookup_odSet_ne {α : Type} (od : List (String × α)) {k k' : String} (v : α)
    (h : k ≠ k') : odLookup (odSet od k v) k' = odLookup od k' := by
  induction od with
  | nil => simp [odSet, odLookup, h]
  | cons hd tl ih =>
    obtain ⟨k₀, v₀⟩ := hd
    by_cases h₀ : k₀ = k
    · subst h₀; simp [odSet, odLookup, h]
    · simp [odSet, odLookup, h₀, ih]

theorem odLookup_isSome_of_mem_keys {α : Type} (od : List (String × α)) (k : String)
    (h : k ∈ odKeys od) : (odLookup od k).isSome := by
  induction od with
  | nil => simp [odKeys] at h
  | cons hd tl ih =>
    obtain ⟨k', v'⟩ := hd
    by_cases hk : k' = k
    · simp [odLookup, hk]
    · have h' : k ∈ odKeys tl := by
        simp only [odKeys, List.map_cons, List.mem_cons] at h
        rcases h with h | h
        · exact absurd h.symm hk
        · exact h
      simp [odLookup, hk]
      exact ih h'

theorem mem_keys_of_odLookup_some {α : Type} (od : List (String × α)) (k : String)
    (v : α) (h : odLookup od k = some v) : k ∈ odKeys od := by
  induction od with
  | nil => simp [odLookup] at h
  | cons hd tl ih =>
    obtain ⟨k', v'⟩ := hd
    by_cases hk : k' = k
    · simp only [odKeys, List.map_cons, List.mem_cons]
      exact Or.inl hk.symm
    · simp only [odLookup, if_neg hk] at h
      simp only [odKeys, List.map_cons, List.mem_cons]
      exact Or.inr (ih h)

theorem mem_odSet_sub {α : Type} (od : List (String × α)) (k : String) (v : α)
    (p : String × α) (h : p ∈ odSet od k v) : p ∈ od ∨ p = (k, v) := by
  induction od with
  | nil => simp [odSet] at h; exact Or.inr h
  | cons hd tl ih =>
    obtain ⟨k', v'⟩ := hd
    by_cases hk : k' = k
    · subst hk
      simp only [odSet, if_pos rfl] at h
      rcases List.mem_cons.mp h with h | h
      · exact Or.inr h
      · exact Or.inl (List.mem_cons_of_mem _ h)
    · simp only [odSet, if_neg hk] at h
      rcases List.mem_cons.mp h with h | h
      · exact Or.inl (h ▸ List.mem_cons_self _ _)
      · rcases ih h with h' | h'
        · exact Or.inl (List.mem_cons_of_mem _ h')
        · exact Or.inr h'

/-! ### Synthesis-loop lemmas -/

theorem prefixed_empty (s : String) : prefixed "" s = s := rfl

theorem prefixed_inj (pre : String) {a b : String} (h : prefixed pre a = prefixed pre b) :
    a = b := by
  unfold prefixed at h
  by_cases hp : pre = ""
  · simpa [hp] using h
  · rw [if_neg hp, if_neg hp] at h
    have hd : (pre ++ "." ++ a).data = (pre ++ "." ++ b).data := by rw [h]
    simp [String.data_append] at hd
    exact String.ext hd

theorem synth_go_ok_of_total (reg : Registry) (pre : String) (excluded : List String)
    (l : List Field) (props : Props)
    (htot : ∀ f ∈ l, (resolveAdapter reg f).isSome) :
    synth_go reg pre excluded none l props = .ok (synth_fold reg pre excluded l props) := by
  induction l generalizing props with
  | nil => rfl
  | cons f rest ih =>
    have hf := htot f (List.mem_cons_self _ _)
    obtain ⟨a, ha⟩ := Option.isSome_iff_exists.mp hf
    have htl : ∀ g ∈ rest, (resolveAdapter reg g).isSome :=
      fun g hg => htot g (List.mem_cons_of_mem _ hg)
    by_cases hx : f.name ∈ excluded
    · simp only [synth_go, synth_fold, if_pos hx, reduceCtorEq, if_false]
      exact ih _ htl
    · simp only [synth_go, synth_fold, if_neg hx, reduceCtorEq, if_false, ha,
        adapter_schema]
      exact ih _ htl

theorem synth_go_fname_not_found (reg : Registry) (pre : String)
    (excluded : List String) (F : String) (l : List Field) (props : Props)
    (habs : F ∉ l.map Field.name) :
    synth_go reg pre excluded (some F) l props =
      synth_go reg pre excluded none l props := by
  induction l generalizing props with
  | nil => rfl
  | cons f rest ih =>
    have hne : F ≠ f.name := by
      intro h
      exact habs (by simp [h])
    have htl : F ∉ rest.map Field.name := by
      intro h
      exact habs (by simp [List.mem_map] at h ⊢; exact Or.inr h)
    have hno : ¬ (some F = some f.name) := by simp [hne]
    by_cases hx : f.name ∈ excluded
    · simp only [synth_go, if_pos hx, if_neg hno, reduceCtorEq, if_false]
      exact ih _ htl
    · simp only [synth_go, if_neg hx, if_neg hno, reduceCtorEq, if_false]
      cases hres : resolveAdapter reg f with
      | none => rfl
      | some a => exact ih _ htl

theorem synth_go_fname_found (reg : Registry) (pre : String)
    (excluded : List String) (l₁ : List Field) (f : Field) (l₂ : List Field)
    (props : Props)
    (htot : ∀ g ∈ l₁ ++ f :: l₂, (resolveAdapter reg g).isSome)
    (hfirst : f.name ∉ l₁.map Field.name) :
    synth_go reg pre excluded (some f.name) (l₁ ++ f :: l₂) props =
      .ok [(prefixed pre f.name, adapter_schema reg pre f)] := by
  induction l₁ generalizing props with
  | nil =>
    obtain ⟨a, ha⟩ := Option.isSome_iff_exists.mp (htot f (by simp))
    simp only [List.nil_append, synth_go, if_pos rfl, ha, adapter_schema]
    rfl
  | cons g rest ih =>
    have hg := htot g (by simp)
    obtain ⟨a, ha⟩ := Option.isSome_iff_exists.mp hg
    have hne : ¬ (some f.name = some g.name) := by
      intro h
      exact hfirst (by simp [Option.some.injEq] at h; simp [h])
    have htl : ∀ x ∈ rest ++ f :: l₂, (resolveAdapter reg x).isSome :=
      fun x hx => htot x (by simpa using Or.inr (by simpa using hx))
    have hf₁ : f.name ∉ rest.map Field.name := by
      intro h
      exact hfirst (by simp [List.mem_map] at h ⊢; exact Or.inr h)
    by_cases hx : g.name ∈ excluded
    · simp only [List.cons_append, synth_go, if_pos hx, if_neg hne]
      exact ih _ htl hf₁
    · simp only [List.cons_append, synth_go, if_neg hx, if_neg hne, ha]
      exact ih _ htl hf₁

theorem synth_fold_append (reg : Registry) (pre : String) (excluded : List String)
    (l₁ l₂ : List Field) (props : Props) :
    synth_fold reg pre excluded (l₁ ++ l₂) props =
      synth_fold reg pre excluded l₂ (synth_fold reg pre excluded l₁ props) := by
  induction l₁ generalizing props with
  | nil => rfl
  | cons f rest ih =>
    by_cases hx : f.name ∈ excluded
    · simp only [List.cons_append, synth_fold, if_pos hx]
      exact ih _
    · simp only [List.cons_append, synth_fold, if_neg hx]
      exact ih _

theorem odKeys_synth_fold (reg : Registry) (pre : String) (excluded : List String)
    (l : List Field) (props : Props) :
    odKeys (synth_fold reg pre excluded l props) =
      (emitted_keys pre excluded l).foldl insertKey (odKeys props) := by
  induction l generalizing props with
  | nil => rfl
  | cons f rest ih =>
    by_cases hx : f.name ∈ excluded
    · simp only [synth_fold, emitted_keys, if_pos hx]
      exact ih _
    · simp only [synth_fold, emitted_keys, if_neg hx, List.foldl_cons]
      rw [ih, odKeys_odSet]

theorem mem_foldl_insertKey (names : List String) (ks : List String) (k : String) :
    k ∈ names.foldl insertKey ks ↔ k ∈ ks ∨ k ∈ names := by
  induction names generalizing ks with
  | nil => simp
  | cons n rest ih =>
    simp only [List.foldl_cons, ih, List.mem_cons]
    unfold insertKey
    by_cases hn : n ∈ ks
    · rw [if_pos hn]
      constructor
      · rintro (h | h)
        · exact Or.inl h
        · exact Or.inr (Or.inr h)
      · rintro (h | h | h)
        · exact Or.inl h
        · exact Or.inl (h ▸ hn)
        · exact Or.inr h
    · rw [if_neg hn]
      constructor
      · rintro (h | h)
        · rcases List.mem_append.mp h with h' | h'
          · exact Or.inl h'
          · exact Or.inr (Or.inl (List.mem_singleton.mp h'))
        · exact Or.inr (Or.inr h)
      · rintro (h | h | h)
        · exact Or.inl (List.mem_append.mpr (Or.inl h))
        · exact Or.inl (List.mem_append.mpr (Or.inr (by simp [h])))
        · exact Or.inr h

theorem foldl_insertKey_of_nodup (names : List String) (ks : List String)
    (hn : names.Nodup) (hdisj : ∀ k ∈ names, k ∉ ks) :
    names.foldl insertKey ks = ks ++ names := by
  induction names generalizing ks with
  | nil => simp
  | cons n rest ih =>
    have hn' : rest.Nodup := (List.nodup_cons.mp hn).2
    have hnmem : n ∉ rest := (List.nodup_cons.mp hn).1
    have hnks : n ∉ ks := hdisj n (List.mem_cons_self _ _)
    have hd : ∀ k ∈ rest, k ∉ ks ++ [n] := by
      intro k hk hmem
      rcases List.mem_append.mp hmem with h | h
      · exact hdisj k (List.mem_cons_of_mem _ hk) h
      · exact hnmem (List.mem_singleton.mp h ▸ hk)
    simp only [List.foldl_cons]
    rw [insertKey, if_neg hnks, ih (ks ++ [n]) hn' hd]
    simp

theorem firstSeen_of_nodup (names : List String) (hn : names.Nodup) :
    firstSeen names = names := by
  unfold firstSeen
  rw [foldl_insertKey_of_nodup names [] hn (by simp)]
  simp

theorem odLookup_synth_fold_not_emitted (reg : Registry) (pre : String)
    (excluded : List String) (l : List Field) (props : Props) (k : String)
    (h : k ∉ emitted_keys pre excluded l) :
    odLookup (synth_fold reg pre excluded l props) k = odLookup props k := by
  induction l generalizing props with
  | nil => rfl
  | cons f rest ih =>
    by_cases hx : f.name ∈ excluded
    · simp only [synth_fold, if_pos hx]
      exact ih _ (by simpa [emitted_keys, hx] using h)
    · have h' : k ∉ emitted_keys pre excluded rest := by
        simp [emitted_keys, hx] at h
        exact h.2
      have hne : prefixed pre f.name ≠ k := by
        simp [emitted_keys, hx] at h
        exact fun hc => absurd hc.symm h.1
      simp only [synth_fold, if_neg hx]
      rw [ih _ h', odLookup_odSet_ne _ _ hne]

theorem mem_emitted_keys (pre : String) (excluded : List String) (l : List Field)
    (k : String) :
    k ∈ emitted_keys pre excluded l ↔
      ∃ f ∈ l, f.name ∉ excluded ∧ k = prefixed pre f.name := by
  induction l with
  | nil => simp [emitted_keys]
  | cons f rest ih =>
    by_cases hx : f.name ∈ excluded
    · simp only [emitted_keys, if_pos hx]
      rw [ih]
      constructor
      · rintro ⟨g, hg, hgx, hk⟩
        exact ⟨g, List.mem_cons_of_mem _ hg, hgx, hk⟩
      · rintro ⟨g, hg, hgx, hk⟩
        rcases List.mem_cons.mp hg with h | h
        · exact absurd (by rw [h]; exact hx) hgx
        · exact ⟨g, h, hgx, hk⟩
    · simp only [emitted_keys, if_neg hx]
      constructor
      · intro h
        rcases List.mem_cons.mp h with h | h
        · exact ⟨f, List.mem_cons_self _ _, hx, h⟩
        · obtain ⟨g, hg, hgx, hk⟩ := ih.mp h
          exact ⟨g, List.mem_cons_of_mem _ hg, hgx, hk⟩
      · rintro ⟨g, hg, hgx, hk⟩
        rcases List.mem_cons.mp hg with h | h
        · exact List.mem_cons.mpr (Or.inl (by rw [hk, h]))
        · exact List.mem_cons.mpr (Or.inr (ih.mpr ⟨g, h, hgx, hk⟩))

/-! ### Mode-pass lemmas -/

theorem odKeys_modes_fold (l : List Field) (props : Props) :
    odKeys (modes_fold l props) = odKeys props := by
  induction l generalizing props with
  | nil => rfl
  | cons f rest ih =>
    cases hm : f.mode with
    | none => simp only [modes_fold, hm]; exact ih _
    | some m =>
      simp only [modes_fold, hm]
      cases hod : odLookup props f.name with
      | none => exact ih _
      | some od =>
        rw [ih _, odKeys_odSet, insertKey,
          if_pos (mem_keys_of_odLookup_some _ _ _ hod)]

theorem apply_field_modes_ok (l : List Field) (props : Props)
    (h : ∀ f ∈ l, f.mode.isSome → f.name ∈ odKeys props) :
    apply_field_modes l props = .ok (modes_fold l props) := by
  induction l generalizing props with
  | nil => rfl
  | cons f rest ih =>
    cases hm : f.mode with
    | none =>
      simp only [apply_field_modes, modes_fold, hm]
      exact ih _ (fun g hg => h g (List.mem_cons_of_mem _ hg))
    | some m =>
      have hmem : f.name ∈ odKeys props :=
        h f (List.mem_cons_self _ _) (by simp [hm])
      obtain ⟨od, hod⟩ :=
        Option.isSome_iff_exists.mp (odLookup_isSome_of_mem_keys _ _ hmem)
      simp only [apply_field_modes, modes_fold, hm, hod]
      refine ih _ (fun g hg hgm => ?_)
      rw [odKeys_odSet, insertKey, if_pos (mem_keys_of_odLookup_some _ _ _ hod)]
      exact h g (List.mem_cons_of_mem _ hg) hgm

theorem odLookup_modes_fold_not_moded (l : List Field) (props : Props) (k : String)
    (h : k ∉ moded_names l) :
    odLookup (modes_fold l props) k = odLookup props k := by
  induction l generalizing props with
  | nil => rfl
  | cons f rest ih =>
    cases hm : f.mode with
    | none =>
      simp only [modes_fold, hm]
      exact ih _ (by simpa [moded_names, hm] using h)
    | some m =>
      simp only [moded_names, hm, List.mem_cons] at h
      push_neg at h
      simp only [modes_fold, hm]
      cases hod : odLookup props f.name with
      | none => exact ih _ h.2
      | some od =>
        rw [ih _ h.2, odLookup_odSet_ne _ _ (fun hc => h.1 hc.symm)]

theorem modes_fold_append (l₁ l₂ : List Field) (props : Props) :
    modes_fold (l₁ ++ l₂) props = modes_fold l₂ (modes_fold l₁ props) := by
  induction l₁ generalizing props with
  | nil => rfl
  | cons f rest ih =>
    cases hm : f.mode with
    | none => simp only [List.cons_append, modes_fold, hm]; exact ih _
    | some m =>
      simp only [List.cons_append, modes_fold, hm]
      cases hod : odLookup props f.name with
      | none => exact ih _
      | some od => exact ih _

theorem mem_moded_names (l : List Field) (k : String) :
    k ∈ moded_names l ↔ ∃ f ∈ l, f.mode.isSome ∧ f.name = k := by
  induction l with
  | nil => simp [moded_names]
  | cons f rest ih =>
    cases hm : f.mode with
    | none =>
      simp only [moded_names, hm]
      rw [ih]
      constructor
      · rintro ⟨g, hg, hgm, hk⟩
        exact ⟨g, List.mem_cons_of_mem _ hg, hgm, hk⟩
      · rintro ⟨g, hg, hgm, hk⟩
        rcases List.mem_cons.mp hg with h | h
        · rw [h, hm] at hgm; simp at hgm
        · exact ⟨g, h, hgm, hk⟩
    | some m =>
      simp only [moded_names, hm]
      constructor
      · intro h
        rcases List.mem_cons.mp h with h | h
        · exact ⟨f, List.mem_cons_self _ _, by simp [hm], h.symm⟩
        · obtain ⟨g, hg, hgm, hk⟩ := ih.mp h
          exact ⟨g, List.mem_cons_of_mem _ hg, hgm, hk⟩
      · rintro ⟨g, hg, hgm, hk⟩
        rcases List.mem_cons.mp hg with h | h
        · exact List.mem_cons.mpr (Or.inl (by rw [← hk, h]))
        · exact List.mem_cons.mpr (Or.inr (ih.mpr ⟨g, h, hgm, hk⟩))

theorem odLookup_modes_fold_unique (l₁ : List Field) (f : Field) (l₂ : List Field)
    (props : Props) (m : String) (od : OD)
    (hm : f.mode = some m)
    (h1 : f.name ∉ moded_names l₁) (h2 : f.name ∉ moded_names l₂)
    (hod : odLookup props f.name = some od) :
    odLookup (modes_fold (l₁ ++ f :: l₂) props) f.name =
      some (odSet od "mode" (.str m)) := by
  rw [modes_fold_append]
  have hmid : odLookup (modes_fold l₁ props) f.name = some od := by
    rw [odLookup_modes_fold_not_moded _ _ _ h1, hod]
  simp only [modes_fold, hm, hmid]
  rw [odLookup_modes_fold_not_moded _ _ _ h2, odLookup_odSet_self]

/-! ### Required-list lemmas -/

theorem mem_required_names (l : List Field) (k : String) :
    k ∈ required_names l ↔ ∃ f ∈ l, f.required ∧ f.name = k := by
  induction l with
  | nil => simp [required_names]
  | cons f rest ih =>
    by_cases hr : f.required
    · simp only [required_names, if_pos hr]
      constructor
      · intro h
        rcases List.mem_cons.mp h with h | h
        · exact ⟨f, List.mem_cons_self _ _, hr, h.symm⟩
        · obtain ⟨g, hg, hgr, hk⟩ := ih.mp h
          exact ⟨g, List.mem_cons_of_mem _ hg, hgr, hk⟩
      · rintro ⟨g, hg, hgr, hk⟩
        rcases List.mem_cons.mp hg with h | h
        · exact List.mem_cons.mpr (Or.inl (by rw [← hk, h]))
        · exact List.mem_cons.mpr (Or.inr (ih.mpr ⟨g, h, hgr, hk⟩))
    · simp only [required_names, if_neg hr]
      rw [ih]
      constructor
      · rintro ⟨g, hg, hgr, hk⟩
        exact ⟨g, List.mem_cons_of_mem _ hg, hgr, hk⟩
      · rintro ⟨g, hg, hgr, hk⟩
        rcases List.mem_cons.mp hg with h | h
        · exact absurd (by rw [h] at hgr; exact hgr) hr
        · exact ⟨g, h, hgr, hk⟩

theorem required_names_sublist (l : List Field) :
    (required_names l).Sublist (l.map Field.name) := by
  induction l with
  | nil => simp [required_names]
  | cons f rest ih =>
    by_cases hr : f.required
    · simpa only [required_names, if_pos hr, List.map_cons] using ih.cons₂ _
    · simpa only [required_names, if_neg hr, List.map_cons] using ih.cons _

theorem required_names_nodup (l : List Field)
    (h : (l.map Field.name).Nodup) : (required_names l).Nodup :=
  (required_names_sublist l).nodup h

/-! ### Bridge lemmas for the facade -/

theorem find?_decomp {α : Type} (p : α → Bool) (l : List α) (a : α)
    (h : l.find? p = some a) :
    ∃ l₁ l₂, l = l₁ ++ a :: l₂ ∧ ∀ x ∈ l₁, p x = false := by
  induction l with
  | nil => simp [List.find?] at h
  | cons x rest ih =>
    by_cases hp : p x
    · rw [List.find?_cons_of_pos _ hp] at h
      refine ⟨[], rest, ?_, by simp⟩
      simp [Option.some_inj.mp h]
    · rw [List.find?_cons_of_neg _ hp] at h
      obtain ⟨l₁, l₂, hl, hall⟩ := ih h
      refine ⟨x :: l₁, l₂, by simp [hl], ?_⟩
      intro y hy
      rcases List.mem_cons.mp hy with h' | h'
      · rw [h']; exact Bool.eq_false_iff.mpr hp
      · exact hall y h'

theorem mem_keys_synth_fold (reg : Registry) (pre : String) (excluded : List String)
    (l : List Field) (props : Props) (f : Field)
    (hf : f ∈ l) (hx : f.name ∉ excluded) :
    prefixed pre f.name ∈ odKeys (synth_fold reg pre excluded l props) := by
  rw [odKeys_synth_fold, mem_foldl_insertKey]
  exact Or.inr ((mem_emitted_keys pre excluded l _).mpr ⟨f, hf, hx, rfl⟩)

theorem moded_names_subset (l : List Field) (k : String)
    (h : k ∈ moded_names l) : k ∈ l.map Field.name := by
  obtain ⟨f, hf, _, hk⟩ := (mem_moded_names l k).mp h
  exact List.mem_map.mpr ⟨f, hf, hk⟩

theorem emitted_keys_empty_subset (excluded : List String) (l : List Field)
    (k : String) (h : k ∈ emitted_keys "" excluded l) : k ∈ l.map Field.name := by
  obtain ⟨f, hf, _, hk⟩ := (mem_emitted_keys "" excluded l k).mp h
  exact List.mem_map.mpr ⟨f, hf, by rw [hk, prefixed_empty]⟩

theorem odLookup_synth_fold_unique (reg : Registry) (excluded : List String)
    (l₁ : List Field) (f : Field) (l₂ : List Field) (props : Props)
    (hx : f.name ∉ excluded) (h2 : f.name ∉ l₂.map Field.name) :
    odLookup (synth_fold reg "" excluded (l₁ ++ f :: l₂) props) f.name =
      some (adapter_schema reg "" f) := by
  rw [synth_fold_append]
  simp only [synth_fold, if_neg hx]
  rw [odLookup_synth_fold_not_emitted _ _ _ _ _ _
    (fun hc => h2 (emitted_keys_empty_subset excluded l₂ _ hc))]
  rw [prefixed_empty, odLookup_odSet_self]

theorem get_jsonschema_for_fti_ok (reg : Registry) (tr : String → String)
    (fti : FTI) (excluded : List String)
    (htot : ∀ f ∈ iter_fields (fti_fieldsets tr fti), (resolveAdapter reg f).isSome)
    (hmode : ∀ f ∈ iter_fields (fti_fieldsets tr fti),
      f.mode.isSome → f.name ∉ excluded) :
    get_jsonschema_for_fti reg tr fti excluded =
      .ok { typ := "object", title := tr fti.title,
            properties := modes_fold (iter_fields (fti_fieldsets tr fti))
              (synth_fold reg "" excluded (iter_fields (fti_fieldsets tr fti)) []),
            required := required_names (iter_fields (fti_fieldsets tr fti)),
            fieldsets := get_fieldset_infos (fti_fieldsets tr fti),
            layouts := fti.view_methods } := by
  have h1 : get_jsonschema_properties reg (fti_fieldsets tr fti) "" excluded none =
      .ok (synth_fold reg "" excluded (iter_fields (fti_fieldsets tr fti)) []) :=
    synth_go_ok_of_total _ _ _ _ _ htot
  have h2 : apply_field_modes (iter_fields (fti_fieldsets tr fti))
      (synth_fold reg "" excluded (iter_fields (fti_fieldsets tr fti)) []) =
      .ok (modes_fold (iter_fields (fti_fieldsets tr fti))
        (synth_fold reg "" excluded (iter_fields (fti_fieldsets tr fti)) [])) := by
    refine apply_field_modes_ok _ _ (fun f hf hm => ?_)
    have := mem_keys_synth_fold reg "" excluded _ [] f hf (hmode f hf hm)
    rwa [prefixed_empty] at this
  simp only [get_jsonschema_for_fti, h1, h2]

/-! ### Concrete fixtures for witnesses and counterexamples -/

/-- A minimal schema fragment, as a typical adapter would produce. -/
def trivialAdapter : String → OD := fun _ => [("type", .str "string")]

/-- A registry with no named adapters and the trivial unnamed adapter for
every field type. -/
def exReg : Registry :=
  { named := fun _ _ => none, unnamed := fun _ => some trivialAdapter }

/-- A plain optional field with the given name and no mode. -/
def mkField (n : String) : Field :=
  { name := n, widgetName := n, mode := none, required := false,
    default := .null, defaultFactory := .null, interface := "None",
    max_length := .null, min_length := .null, missing_value := .null,
    order := .null, readonly := .null }

/-- A required field with the given name. -/
def mkReqField (n : String) : Field := { mkField n with required := true }

/-- A field with the given name and mode. -/
def mkModeField (n m : String) : Field := { mkField n with mode := some m }

/-- An FTI whose default fieldset and extra group both carry a required field
named "a". -/
def exFtiDup : FTI :=
  { form := some { fields := [mkReqField "a"],
                   groups := [{ name := "extra", label := "Extra",
                                fields := [mkReqField "a"] }] },
    title := "T", view_methods := [] }

/-- An FTI with a required field "a" and an optional field "b". -/
def exFti1 : FTI :=
  { form := some { fields := [mkReqField "a", mkField "b"], groups := [] },
    title := "T", view_methods := ["view"] }

/-- An FTI with a single field "a" carrying mode "hidden". -/
def exFtiMode : FTI :=
  { form := some { fields := [mkModeField "a" "hidden"], groups := [] },
    title := "T", view_methods := [] }

/-! ### Claim C4 -/

/-- C4: for an FTI whose `lookupSchema` raises `AttributeError`,
`get_jsonschema_for_fti` does not raise and returns a document with empty
properties, empty required list and empty fieldsets, while title and layouts
are still computed from the FTI. -/
theorem schemaless_fti_fallback (reg : Registry) (tr : String → String)
    (title : String) (vm : List String) (excluded : List String) :
    get_jsonschema_for_fti reg tr
        { form := none, title := title, view_methods := vm } excluded =
      .ok { typ := "object", title := tr title, properties := [],
            required := [], fieldsets := [], layouts := vm } := rfl

/-! ### Claim C5 -/

/-- C5 (amended): for every successful `get_jsonschema_for_fti` run, the
"required" list is exactly the unprefixed names of the required fields across
all fieldsets in traversal order (so as a set it is the set of required field
names, with no prefixing anywhere), and it has no duplicates whenever field
names are globally unique across fieldsets. -/
theorem required_list_characterization (reg : Registry) (tr : String → String)
    (fti : FTI) (excluded : List String)
    (htot : ∀ f ∈ iter_fields (fti_fieldsets tr fti), (resolveAdapter reg f).isSome)
    (hmode : ∀ f ∈ iter_fields (fti_fieldsets tr fti),
      f.mode.isSome → f.name ∉ excluded) :
    ∃ doc, get_jsonschema_for_fti reg tr fti excluded = .ok doc ∧
      doc.required = required_names (iter_fields (fti_fieldsets tr fti)) ∧
      (∀ n, n ∈ doc.required ↔
        ∃ f ∈ iter_fields (fti_fieldsets tr fti), f.required ∧ f.name = n) ∧
      (((iter_fields (fti_fieldsets tr fti)).map Field.name).Nodup →
        doc.required.Nodup) := by
  refine ⟨_, get_jsonschema_for_fti_ok reg tr fti excluded htot hmode, rfl, ?_, ?_⟩
  · intro n
    exact mem_required_names _ n
  · intro hnd
    exact required_names_nodup _ hnd

/-- C5 witness: a concrete run on a type with required field "a" and optional
field "b" yields required == ["a"]. -/
theorem required_list_witness :
    ∃ doc, get_jsonschema_for_fti exReg (fun s => s) exFti1 [] = .ok doc ∧
      doc.required = ["a"] := by
  obtain ⟨doc, hdoc, hreq, -, -⟩ :=
    required_list_characterization exReg (fun s => s) exFti1 []
      (fun f _ => rfl) (fun f _ _ => List.not_mem_nil _)
  exact ⟨doc, hdoc, by rw [hreq]; rfl⟩

/-- C5 counterexample: with the same required field name "a" in two fieldsets,
the "required" array is ["a", "a"], which has a duplicate, contradicting the
claim's "contains no duplicate names". -/
theorem required_list_counterexample :
    (get_jsonschema_for_fti exReg (fun s => s) exFtiDup []).map
        JsonSchemaDoc.required = .ok ["a", "a"] ∧
      ¬ (["a", "a"] : List String).Nodup := by
  constructor
  · rfl
  · decide

/-! ### Claim C3 -/

/-- C3 (amended): whenever every field with a non-null mode is absent from
`excluded_fields` (and adapters resolve, field names are unique across
fieldsets, and no adapter emits a "mode" key of its own),
`get_jsonschema_for_fti` completes and the returned property of every field
with a non-null mode carries a "mode" key equal to that mode, while a field
with no mode gets no "mode" key; if a field with a non-null mode is excluded,
the call instead fails with a KeyError (see the counterexample). -/
theorem field_modes_attached (reg : Registry) (tr : String → String) (fti : FTI)
    (excluded : List String)
    (htot : ∀ f ∈ iter_fields (fti_fieldsets tr fti), (resolveAdapter reg f).isSome)
    (hnodup : ((iter_fields (fti_fieldsets tr fti)).map Field.name).Nodup)
    (hmode : ∀ f ∈ iter_fields (fti_fieldsets tr fti),
      f.mode.isSome → f.name ∉ excluded)
    (hnomode : ∀ f ∈ iter_fields (fti_fieldsets tr fti),
      odLookup (adapter_schema reg "" f) "mode" = none) :
    ∃ doc, get_jsonschema_for_fti reg tr fti excluded = .ok doc ∧
      ∀ f ∈ iter_fields (fti_fieldsets tr fti),
        (∀ m, f.mode = some m →
          odLookup doc.properties f.name =
            some (odSet (adapter_schema reg "" f) "mode" (.str m)) ∧
          odLookup (odSet (adapter_schema reg "" f) "mode" (.str m)) "mode" =
            some (.str m)) ∧
        (f.mode = none → f.name ∉ excluded →
          odLookup doc.properties f.name = some (adapter_schema reg "" f) ∧
          odLookup (adapter_schema reg "" f) "mode" = none) := by
  refine ⟨_, get_jsonschema_for_fti_ok reg tr fti excluded htot hmode, ?_⟩
  intro f hf
  dsimp only
  obtain ⟨l₁, l₂, hdec⟩ := List.append_of_mem hf
  have hmap : (l₁.map Field.name ++
      f.name :: l₂.map Field.name).Nodup := by
    rw [hdec] at hnodup
    simpa using hnodup
  have hnd := List.nodup_append.mp hmap
  have h2 : f.name ∉ l₂.map Field.name := (List.nodup_cons.mp hnd.2.1).1
  have h1 : f.name ∉ l₁.map Field.name :=
    fun hc => hnd.2.2 hc (List.mem_cons_self _ _)
  have hm1 : f.name ∉ moded_names l₁ :=
    fun hc => h1 (moded_names_subset _ _ hc)
  have hm2 : f.name ∉ moded_names l₂ :=
    fun hc => h2 (moded_names_subset _ _ hc)
  constructor
  · intro m hm'
    have hx : f.name ∉ excluded := hmode f hf (by simp [hm'])
    have hsyn : odLookup
        (synth_fold reg "" excluded (iter_fields (fti_fieldsets tr fti)) [])
        f.name = some (adapter_schema reg "" f) := by
      rw [hdec]
      exact odLookup_synth_fold_unique reg excluded l₁ f l₂ [] hx h2
    constructor
    · conv_lhs => rw [hdec]
      exact odLookup_modes_fold_unique l₁ f l₂ _ m _ hm' hm1 hm2
        (by rw [← hdec]; exact hsyn)
    · exact odLookup_odSet_self _ _ _
  · intro hm' hx
    have hnm : f.name ∉ moded_names (iter_fields (fti_fieldsets tr fti)) := by
      intro hc
      obtain ⟨g, hg, hgm, hk⟩ :=
        (mem_moded_names (iter_fields (fti_fieldsets tr fti)) f.name).mp hc
      have : g = f := List.inj_on_of_nodup_map hnodup hg hf hk
      rw [this, hm'] at hgm
      simp at hgm
    constructor
    · rw [odLookup_modes_fold_not_moded _ _ _ hnm, hdec]
      exact odLookup_synth_fold_unique reg excluded l₁ f l₂ [] hx h2
    · exact hnomode f hf

/-- C3 witness: with a moded field "a" not excluded, the property of "a"
carries mode "hidden". -/
theorem field_modes_witness :
    ∃ doc, get_jsonschema_for_fti exReg (fun s => s) exFtiMode [] = .ok doc ∧
      odLookup doc.properties "a" =
        some (odSet (trivialAdapter "") "mode" (.str "hidden")) := by
  obtain ⟨doc, hdoc, hall⟩ :=
    field_modes_attached exReg (fun s => s) exFtiMode []
      (fun f _ => rfl) (by decide)
      (fun f _ _ => List.not_mem_nil _) (fun f _ => rfl)
  refine ⟨doc, hdoc, ?_⟩
  have hm := (hall (mkModeField "a" "hidden") (by simp [exFtiMode, fti_fieldsets,
    get_form_fieldsets, iter_fields])).1 "hidden" rfl
  exact hm.1

/-- C3 counterexample: excluding the moded field "a" makes
`get_jsonschema_for_fti` raise a KeyError in the mode pass — the call does not
complete for every `excluded_fields`, contradicting the claim as stated. -/
theorem field_modes_counterexample :
    get_jsonschema_for_fti exReg (fun s => s) exFtiMode ["a"] =
      .error .keyError := rfl

/-! ### Claim C1 -/

/-- A one-fieldset form with a single field "a". -/
def exFs1a : Fieldset :=
  { id := "default", title := "Default", fields := [mkField "a"] }

/-- A one-fieldset form with fields "a", "b", "c". -/
def exFs3 : Fieldset :=
  { id := "default", title := "Default",
    fields := [mkField "a", mkField "b", mkField "c"] }

/-- C1 (amended): with `fname = F`, the synthesizer short-circuits at the
first field named F and returns a mapping with exactly that one (prefixed)
key, no matter what fields follow; but when no field named F exists, it does
not return an empty mapping — it behaves exactly as a call without `fname`
and returns the full mapping of all non-excluded fields. -/
theorem single_field_query (reg : Registry) (fieldsets : List Fieldset)
    (pre : String) (excluded : List String) (F : String)
    (htot : ∀ f ∈ iter_fields fieldsets, (resolveAdapter reg f).isSome) :
    (F ∉ (iter_fields fieldsets).map Field.name →
      get_jsonschema_properties reg fieldsets pre excluded (some F) =
        get_jsonschema_properties reg fieldsets pre excluded none) ∧
    (∀ l₁ f l₂, iter_fields fieldsets = l₁ ++ f :: l₂ → f.name = F →
      F ∉ l₁.map Field.name →
      get_jsonschema_properties reg fieldsets pre excluded (some F) =
        .ok [(prefixed pre F, adapter_schema reg pre f)]) := by
  constructor
  · intro habs
    exact synth_go_fname_not_found reg pre excluded F _ [] habs
  · intro l₁ f l₂ hdec hname hfirst
    subst hname
    unfold get_jsonschema_properties
    rw [hdec]
    rw [hdec] at htot
    exact synth_go_fname_found reg pre excluded l₁ f l₂ [] htot hfirst

/-- C1 witness: on fields ["a", "b", "c"], querying "b" yields exactly the one
key "b"; querying the absent "zz" yields the same full mapping as no query. -/
theorem single_field_witness :
    get_jsonschema_properties exReg [exFs3] "" [] (some "b") =
        .ok [("b", trivialAdapter "")] ∧
      get_jsonschema_properties exReg [exFs3] "" [] (some "zz") =
        get_jsonschema_properties exReg [exFs3] "" [] none := by
  constructor
  · exact (single_field_query exReg [exFs3] "" [] "b" (fun f _ => rfl)).2
      [mkField "a"] (mkField "b") [mkField "c"] rfl rfl (by decide)
  · exact (single_field_query exReg [exFs3] "" [] "zz" (fun f _ => rfl)).1
      (by decide)

/-- C1 counterexample: querying a field name that exists in no fieldset does
not return an empty mapping — all other fields are synthesized as usual. -/
theorem single_field_counterexample :
    "b" ∉ (iter_fields [exFs1a]).map Field.name ∧
      get_jsonschema_properties exReg [exFs1a] "" [] (some "b") =
        .ok [("a", trivialAdapter "")] ∧
      get_jsonschema_properties exReg [exFs1a] "" [] (some "b") ≠
        .ok ([] : Props) := by
  refine ⟨by decide, rfl, ?_⟩
  rw [show get_jsonschema_properties exReg [exFs1a] "" [] (some "b") =
    .ok [("a", trivialAdapter "")] from rfl]
  simp

/-! ### Claim C2 -/

theorem synth_go_keys_invariant (reg : Registry) (pre : String)
    (excluded : List String) (fname : Option String) (l : List Field)
    (props res : Props)
    (h : synth_go reg pre excluded fname l props = .ok res) :
    ∀ k ∈ odKeys res, k ∈ odKeys props ∨
      ∃ f ∈ l, k = prefixed pre f.name ∧
        (f.name ∉ excluded ∨ fname = some f.name) := by
  induction l generalizing props with
  | nil =>
    intro k hk
    simp only [synth_go, Except.ok.injEq] at h
    rw [h]
    exact Or.inl hk
  | cons f rest ih =>
    intro k hk
    by_cases hm : fname = some f.name
    · simp only [synth_go, if_pos hm] at h
      cases hres : resolveAdapter reg f with
      | none => rw [hres] at h; cases h
      | some a =>
        rw [hres] at h
        simp only [Except.ok.injEq] at h
        rw [← h] at hk
        rcases mem_odKeys_odSet _ _ _ _ hk with h' | h'
        · simp [odKeys] at h'
        · exact Or.inr ⟨f, List.mem_cons_self _ _, h', Or.inr hm⟩
    · by_cases hx : f.name ∈ excluded
      · simp only [synth_go, if_neg hm, if_pos hx] at h
        rcases ih _ h k hk with h' | ⟨g, hg, hk', hcond⟩
        · exact Or.inl h'
        · exact Or.inr ⟨g, List.mem_cons_of_mem _ hg, hk', hcond⟩
      · simp only [synth_go, if_neg hm, if_neg hx] at h
        cases hres : resolveAdapter reg f with
        | none => rw [hres] at h; cases h
        | some a =>
          rw [hres] at h
          rcases ih _ h k hk with h' | ⟨g, hg, hk', hcond⟩
          · rcases mem_odKeys_odSet _ _ _ _ h' with h'' | h''
            · exact Or.inl h''
            · exact Or.inr ⟨f, List.mem_cons_self _ _, h'', Or.inl hx⟩
          · exact Or.inr ⟨g, List.mem_cons_of_mem _ hg, hk', hcond⟩

/-- C2 (amended): for every excluded name N, a successful synthesis never
emits N's (prefixed) key — provided `fname ≠ N`; when `fname = N` the
single-field branch fires before the exclusion test and does emit the key
(see the counterexample).  With an empty prefix the non-emitted key is N
itself. -/
theorem excluded_fields_invariant (reg : Registry) (fieldsets : List Fieldset)
    (pre : String) (excluded : List String) (fname : Option String)
    (N : String) (res : Props)
    (hN : N ∈ excluded) (hf : fname ≠ some N)
    (h : get_jsonschema_properties reg fieldsets pre excluded fname = .ok res) :
    prefixed pre N ∉ odKeys res := by
  intro hk
  rcases synth_go_keys_invariant reg pre excluded fname _ [] res h _ hk
    with h' | ⟨f, _, hk', hcond⟩
  · simp [odKeys] at h'
  · have hname : N = f.name := prefixed_inj pre hk'
    rcases hcond with hc | hc
    · exact hc (hname ▸ hN)
    · exact hf (by rw [hc, ← hname])

/-- C2 witness: excluding "x" on a concrete run leaves no key "x". -/
theorem excluded_fields_witness :
    prefixed "" "x" ∉ odKeys [("a", trivialAdapter "")] :=
  excluded_fields_invariant exReg [exFs1a] "" ["x"] none "x"
    [("a", trivialAdapter "")] (by decide) (by simp) rfl

/-- C2 counterexample: with `fname` equal to an excluded field's name, the
returned mapping does contain that excluded key, contradicting "regardless of
the other arguments". -/
theorem excluded_fields_counterexample :
    ∃ res, get_jsonschema_properties exReg [exFs1a] "" ["a"] (some "a") =
        .ok res ∧ "a" ∈ odKeys res ∧ "a" ∈ (["a"] : List String) :=
  ⟨[("a", trivialAdapter "")], rfl, by decide, by decide⟩

/-! ### Claim C6 -/

/-- C6: the synthesized properties mapping lists its keys in first-seen
insertion order, which is fieldset order then per-fieldset declared field
order (exactly the traversal order of the non-excluded emitted keys, with
no reordering when those keys are distinct); and `get_form_fieldsets` is
deterministic — the "default" fieldset (present iff there are ungrouped
fields) comes first, then the groups in the order the form exposes them,
with their field lists preserved. -/
theorem properties_order_invariant (reg : Registry) (fieldsets : List Fieldset)
    (pre : String) (excluded : List String)
    (htot : ∀ f ∈ iter_fields fieldsets, (resolveAdapter reg f).isSome) :
    (∃ props, get_jsonschema_properties reg fieldsets pre excluded none =
        .ok props ∧
      odKeys props = firstSeen (emitted_keys pre excluded (iter_fields fieldsets)) ∧
      ((emitted_keys pre excluded (iter_fields fieldsets)).Nodup →
        odKeys props = emitted_keys pre excluded (iter_fields fieldsets))) ∧
    (∀ (tr : String → String) (form : Form),
      (get_form_fieldsets tr form).map Fieldset.id =
        (if form.fields.isEmpty then [] else ["default"]) ++
          form.groups.map Group.name ∧
      (get_form_fieldsets tr form).map Fieldset.fields =
        (if form.fields.isEmpty then [] else [form.fields]) ++
          form.groups.map Group.fields) := by
  constructor
  · refine ⟨_, synth_go_ok_of_total reg pre excluded _ [] htot, ?_, ?_⟩
    · rw [odKeys_synth_fold]
      rfl
    · intro hnd
      rw [odKeys_synth_fold]
      have h0 : odKeys ([] : Props) = [] := rfl
      rw [h0, foldl_insertKey_of_nodup _ _ hnd (by simp)]
      simp
  · intro tr form
    constructor
    · by_cases he : form.fields.isEmpty <;>
        simp [get_form_fieldsets, he, Function.comp]
    · by_cases he : form.fields.isEmpty <;>
        simp [get_form_fieldsets, he, Function.comp]

/-- C6 witness: a concrete run with field "b" excluded yields the keys
["a", "c"] in declared order. -/
theorem properties_order_witness :
    ∃ props, get_jsonschema_properties exReg [exFs3] "" ["b"] none =
        .ok props ∧ odKeys props = ["a", "c"] := by
  obtain ⟨⟨props, hp, -, hnd⟩, -⟩ :=
    properties_order_invariant exReg [exFs3] "" ["b"] (fun f _ => rfl)
  exact ⟨props, hp, by rw [hnd (by decide)]; rfl⟩

/-! ### Claim C7 -/

theorem synth_go_error_first (reg : Registry) (pre : String)
    (excluded : List String) (l₁ : List Field) (f : Field) (l₂ : List Field)
    (props : Props)
    (hskip : ∀ g ∈ l₁, g.name ∈ excluded) (hx : f.name ∉ excluded)
    (hnone : resolveAdapter reg f = none) :
    synth_go reg pre excluded none (l₁ ++ f :: l₂) props =
      .error .componentLookup := by
  induction l₁ generalizing props with
  | nil =>
    simp only [List.nil_append, synth_go, reduceCtorEq, if_false, if_neg hx, hnone]
  | cons g rest ih =>
    have hg := hskip g (List.mem_cons_self _ _)
    simp only [List.cons_append, synth_go, reduceCtorEq, if_false, if_pos hg]
    exact ih _ (fun x hxm => hskip x (List.mem_cons_of_mem _ hxm))

/-- C7: adapter resolution tries a named adapter keyed by the field's form
name first and falls back to the unnamed adapter keyed by the field type only
when the named lookup yields nothing; when neither adapter exists for the
first non-excluded field, the ComponentLookupError propagates out of the
synthesizer and aborts `get_jsonschema_for_fti` — it is not converted into a
per-field skip. -/
theorem adapter_dispatch_and_propagation (reg : Registry) (l₁ : List Field)
    (f : Field) (l₂ : List Field) (excluded : List String) (pre : String)
    (i t : String)
    (hskip : ∀ g ∈ l₁, g.name ∈ excluded)
    (hx : f.name ∉ excluded)
    (hnone : resolveAdapter reg f = none) :
    (∀ (g : Field) (a : String → OD),
      reg.named g.widgetName g = some a → resolveAdapter reg g = some a) ∧
    (∀ g : Field, reg.named g.widgetName g = none →
      resolveAdapter reg g = reg.unnamed g) ∧
    get_jsonschema_properties reg
      [{ id := i, title := t, fields := l₁ ++ f :: l₂ }] pre excluded none =
      .error .componentLookup ∧
    (∀ (tr : String → String) (ti : String) (vm : List String),
      get_jsonschema_for_fti reg tr
        { form := some { fields := l₁ ++ f :: l₂, groups := [] },
          title := ti, view_methods := vm } excluded =
        .error .componentLookup) := by
  refine ⟨?_, ?_, ?_, ?_⟩
  · intro g a h
    simp [resolveAdapter, h]
  · intro g h
    simp [resolveAdapter, h]
  · have hit : iter_fields
        [{ id := i, title := t, fields := l₁ ++ f :: l₂ }] = l₁ ++ f :: l₂ := by
      simp [iter_fields]
    unfold get_jsonschema_properties
    rw [hit]
    exact synth_go_error_first reg pre excluded l₁ f l₂ [] hskip hx hnone
  · intro tr ti vm
    have hfs : fti_fieldsets tr
        { form := some { fields := l₁ ++ f :: l₂, groups := [] },
          title := ti, view_methods := vm } =
        [{ id := "default", title := tr "Default", fields := l₁ ++ f :: l₂ }] := by
      simp [fti_fieldsets, get_form_fieldsets]
    have hit : iter_fields
        [{ id := "default", title := tr "Default", fields := l₁ ++ f :: l₂ }] =
        l₁ ++ f :: l₂ := by
      simp [iter_fields]
    have herr : get_jsonschema_properties reg
        [{ id := "default", title := tr "Default", fields := l₁ ++ f :: l₂ }]
        "" excluded none = .error .componentLookup := by
      unfold get_jsonschema_properties
      rw [hit]
      exact synth_go_error_first reg "" excluded l₁ f l₂ [] hskip hx hnone
    simp only [get_jsonschema_for_fti, hfs, herr]

/-- A registry with no adapters at all. -/
def badReg : Registry := { named := fun _ _ => none, unnamed := fun _ => none }

/-- C7 witness: with no adapter for field "a" (and "x" excluded), both the
synthesizer and the facade abort with the lookup error. -/
theorem adapter_dispatch_witness :
    get_jsonschema_properties badReg
        [{ id := "default", title := "Default",
           fields := [mkField "x", mkField "a"] }] "" ["x"] none =
      .error .componentLookup ∧
    get_jsonschema_for_fti badReg (fun s => s)
        { form := some { fields := [mkField "x", mkField "a"], groups := [] },
          title := "T", view_methods := [] } ["x"] =
      .error .componentLookup := by
  have h := adapter_dispatch_and_propagation badReg [mkField "x"] (mkField "a")
    [] ["x"] "" "default" "Default" (by simp [mkField]) (by decide) rfl
  exact ⟨h.2.2.1, h.2.2.2 (fun s => s) "T" []⟩

/-! ### Claim C8 -/

theorem resolve_widget_params_lit (ps₀ : List (String × PValue)) (k : String)
    (v : PValue) (h : (k, v) ∈ resolve_widget_params ps₀) : ∃ j, v = .lit j := by
  obtain ⟨a, _, he⟩ := List.mem_map.mp h
  have hv : v = resolve_value a.2 := by
    have := congrArg Prod.snd he
    simpa using this.symm
  cases ha : a.2 with
  | lit j => exact ⟨j, by rw [hv, ha]; rfl⟩
  | thunk g => exact ⟨g (), by rw [hv, ha]; rfl⟩

theorem widget_params_step_values
    (widgets : List (String × Option (List (String × PValue))))
    (fns : List String) (acc : List (String × List (String × PValue)))
    (hacc : ∀ fn ps, (fn, ps) ∈ acc → ∃ ps₀, ps = resolve_widget_params ps₀) :
    ∀ fn ps, (fn, ps) ∈ fns.foldl
      (fun params field_name =>
        match odLookup widgets field_name with
        | some (some ps) =>
          if ps.isEmpty then params
          else odSet params field_name (resolve_widget_params ps)
        | _ => params) acc →
      ∃ ps₀, ps = resolve_widget_params ps₀ := by
  induction fns generalizing acc with
  | nil => exact hacc
  | cons fn rest ih =>
    simp only [List.foldl_cons]
    cases hlk : odLookup widgets fn with
    | none =>
      simp only [hlk]
      exact ih _ hacc
    | some w' =>
      cases w' with
      | none =>
        simp only [hlk]
        exact ih _ hacc
      | some ps =>
        by_cases he : ps.isEmpty
        · simp only [hlk, if_pos he]
          exact ih _ hacc
        · simp only [hlk, if_neg he]
          refine ih _ (fun fn' ps' hm => ?_)
          rcases mem_odSet_sub _ _ _ _ hm with h' | h'
          · exact hacc _ _ h'
          · exact ⟨ps, (Prod.ext_iff.mp h').2⟩

theorem get_widget_params_values (schemas : List (Option WSchema))
    (acc : List (String × List (String × PValue)))
    (hacc : ∀ fn ps, (fn, ps) ∈ acc → ∃ ps₀, ps = resolve_widget_params ps₀) :
    ∀ fn ps, (fn, ps) ∈ schemas.foldl
      (fun params s =>
        match s with
        | none => params
        | some schema => widget_params_step params schema) acc →
      ∃ ps₀, ps = resolve_widget_params ps₀ := by
  induction schemas generalizing acc with
  | nil => exact hacc
  | cons s rest ih =>
    cases s with
    | none => exact ih _ hacc
    | some w => exact ih _ (widget_params_step_values w.widgets w.fields acc hacc)

theorem resolve_value_idem (v : PValue) :
    resolve_value (resolve_value v) = resolve_value v := by
  cases v <;> rfl

/-- C8: the widget-parameter resolver skips absent (`none`) schemas without
error (removing a `none` anywhere changes nothing); every value it returns is
a resolved literal, never an unevaluated callable; a callable value is
replaced by the result of calling it; and resolution is idempotent, so
resolving the same schema sequence again yields identical literal values. -/
theorem widget_params_resolution :
    (∀ (l₁ l₂ : List (Option WSchema)),
      get_widget_params (l₁ ++ none :: l₂) = get_widget_params (l₁ ++ l₂)) ∧
    (∀ (schemas : List (Option WSchema)) (fn : String)
        (ps : List (String × PValue)) (k : String) (v : PValue),
      (fn, ps) ∈ get_widget_params schemas → (k, v) ∈ ps → ∃ j, v = .lit j) ∧
    (∀ g : Unit → JValue, resolve_value (.thunk g) = .lit (g ())) ∧
    (∀ ps, resolve_widget_params (resolve_widget_params ps) =
      resolve_widget_params ps) := by
  refine ⟨?_, ?_, fun g => rfl, ?_⟩
  · intro l₁ l₂
    unfold get_widget_params
    rw [List.foldl_append, List.foldl_append, List.foldl_cons]
  · intro schemas fn ps k v hps hv
    obtain ⟨ps₀, hps₀⟩ :=
      get_widget_params_values schemas [] (by simp) fn ps hps
    exact resolve_widget_params_lit ps₀ k v (hps₀ ▸ hv)
  · intro ps
    induction ps with
    | nil => rfl
    | cons kv rest ih =>
      simp only [resolve_widget_params, List.map_cons] at ih ⊢
      rw [resolve_value_idem]
      exact congrArg _ ih

/-- A schema declaring one parameterized widget whose parameter "k" is a
deferred computation. -/
def exWSchema : WSchema :=
  { fields := ["f"],
    widgets := [("f", some [("k", .thunk (fun _ => .num 3))])] }

/-- C8 witness: a `none` schema is skipped on a concrete sequence, and the
deferred value in the output is the literal 3. -/
theorem widget_params_witness :
    get_widget_params [none, some exWSchema] = get_widget_params [some exWSchema] ∧
      (∃ j, PValue.lit (JValue.num 3) = PValue.lit j) := by
  refine ⟨widget_params_resolution.1 [] [some exWSchema], ?_⟩
  refine widget_params_resolution.2.1 [some exWSchema] "f"
    [("k", PValue.lit (JValue.num 3))] "k" (PValue.lit (JValue.num 3)) ?_ ?_
  · have h : get_widget_params [some exWSchema] =
        [("f", [("k", PValue.lit (JValue.num 3))])] := rfl
    rw [h]
    exact List.mem_singleton.mpr rfl
  · exact List.mem_singleton.mpr rfl

/-! ### Claim C9 -/

theorem info_go_not_found (reg : Registry) (field_name : String)
    (fieldsets : List Fieldset)
    (hid : ∀ fs ∈ fieldsets, fs.id ≠ field_name)
    (hfld : ∀ fs ∈ fieldsets, ∀ f ∈ fs.fields, f.name ≠ field_name) :
    info_go reg field_name fieldsets =
      .ok (.notFound "No entry could be found for the supplied name.") := by
  induction fieldsets with
  | nil => rfl
  | cons fs rest ih =>
    have h1 : ¬ (fs.id = field_name) := hid fs (List.mem_cons_self _ _)
    have h2 : fs.fields.find? (fun fl => fl.name == field_name) = none :=
      List.find?_eq_none.mpr
        (fun x hx => by simpa using hfld fs (List.mem_cons_self _ _) x hx)
    simp only [info_go, if_neg h1, h2]
    exact ih (fun x hx => hid x (List.mem_cons_of_mem _ hx))
      (fun x hx => hfld x (List.mem_cons_of_mem _ hx))

/-- C9: when the supplied name matches neither any fieldset id nor any field
name in any fieldset (in particular when the type has no structured schema
and the fieldset sequence is empty), `get_info_for_field` returns the literal
not-found marker as a normal result, without raising. -/
theorem info_not_found_marker (reg : Registry) (tr : String → String)
    (fti : FTI) (field_name : String)
    (hid : ∀ fs ∈ fti_fieldsets tr fti, fs.id ≠ field_name)
    (hfld : ∀ fs ∈ fti_fieldsets tr fti, ∀ f ∈ fs.fields, f.name ≠ field_name) :
    get_info_for_field reg tr fti field_name =
      .ok (.notFound "No entry could be found for the supplied name.") :=
  info_go_not_found reg field_name _ hid hfld

/-- C9 witness: querying "zzz" on a type with fields "a", "b" yields the
marker; so does any query on a schema-less type. -/
theorem info_not_found_witness :
    get_info_for_field exReg (fun s => s) exFti1 "zzz" =
        .ok (.notFound "No entry could be found for the supplied name.") ∧
      get_info_for_field exReg (fun s => s)
          { form := none, title := "T", view_methods := [] } "a" =
        .ok (.notFound "No entry could be found for the supplied name.") := by
  constructor
  · exact info_not_found_marker exReg (fun s => s) exFti1 "zzz"
      (by decide) (by decide)
  · exact info_not_found_marker exReg (fun s => s)
      { form := none, title := "T", view_methods := [] } "a"
      (fun fs h => absurd h (List.not_mem_nil _))
      (fun fs h => absurd h (List.not_mem_nil _))

/-! ### Claim C10 -/

theorem info_go_first_field (reg : Registry) (fs : Fieldset)
    (rest : List Fieldset) (N : String)
    (hid : fs.id ≠ N)
    (hfind : ∃ f ∈ fs.fields, f.name = N)
    (htot : ∀ f ∈ fs.fields, (resolveAdapter reg f).isSome) :
    info_go reg N (fs :: rest) = info_go reg N [fs] ∧
    ∃ p, info_go reg N [fs] = .ok (.fieldInfo p) := by
  have hsome : (fs.fields.find? (fun fl => fl.name == N)).isSome := by
    rw [List.find?_isSome]
    obtain ⟨f, hf, hn⟩ := hfind
    exact ⟨f, hf, by simp [hn]⟩
  obtain ⟨fl, hfl⟩ := Option.isSome_iff_exists.mp hsome
  have hname : fl.name = N := by simpa using List.find?_some hfl
  obtain ⟨l₁, l₂, hdec, hl₁⟩ := find?_decomp _ _ _ hfl
  have h1 : fl.name ∉ l₁.map Field.name := by
    intro hc
    obtain ⟨x, hx, he⟩ := List.mem_map.mp hc
    have hb := hl₁ x hx
    rw [he, hname] at hb
    simp [hname] at hb
  have hit : iter_fields [fs] = fs.fields := by simp [iter_fields]
  have hprops : get_jsonschema_properties reg [fs] "" [] (some N) =
      .ok [(N, adapter_schema reg "" fl)] := by
    unfold get_jsonschema_properties
    rw [hit, hdec]
    rw [hdec] at htot
    have h := synth_go_fname_found reg "" [] l₁ fl l₂ [] htot h1
    rw [hname] at h
    simpa [prefixed_empty] using h
  have hlk : odLookup [(N, adapter_schema reg "" fl)] N =
      some (adapter_schema reg "" fl) := by simp [odLookup]
  constructor
  · simp only [info_go, if_neg hid, hfl, hprops, hlk]
  · exact ⟨odSet [(N, adapter_schema reg "" fl)] N
        (decorate_field_info fl (adapter_schema reg "" fl)),
      by simp only [info_go, if_neg hid, hfl, hprops, hlk]⟩

/-- C10: when a field named N occurs in a fieldset that precedes a fieldset
whose id is N, `get_info_for_field` returns the field's decorated property —
the first match in traversal order — not the later fieldset's summary:
fieldset-id matching and field-name matching are interleaved per fieldset
rather than id matching having global priority. -/
theorem info_interleaved_matching (reg : Registry) (tr : String → String)
    (idA tA : String) (flds : List Field) (N tB : String) (flds2 : List Field)
    (ti : String) (vm : List String)
    (hid : idA ≠ N)
    (hfind : ∃ f ∈ flds, f.name = N)
    (htot : ∀ f ∈ flds, (resolveAdapter reg f).isSome) :
    get_info_for_field reg tr
        { form :=
            some { fields := [],
                   groups := [{ name := idA, label := tA, fields := flds },
                              { name := N, label := tB, fields := flds2 }] },
          title := ti, view_methods := vm } N =
      info_go reg N [{ id := idA, title := tr tA, fields := flds }] ∧
    ∃ p, info_go reg N [{ id := idA, title := tr tA, fields := flds }] =
      .ok (.fieldInfo p) := by
  have hfs : fti_fieldsets tr
      { form :=
          some { fields := [],
                 groups := [{ name := idA, label := tA, fields := flds },
                            { name := N, label := tB, fields := flds2 }] },
        title := ti, view_methods := vm } =
      [{ id := idA, title := tr tA, fields := flds },
       { id := N, title := tr tB, fields := flds2 }] := by
    simp [fti_fieldsets, get_form_fieldsets]
  have h := info_go_first_field reg { id := idA, title := tr tA, fields := flds }
    [{ id := N, title := tr tB, fields := flds2 }] N hid hfind htot
  constructor
  · rw [get_info_for_field, hfs]
    exact h.1
  · exact h.2

/-- C10 witness: a field "b" in the first fieldset wins over a later fieldset
whose id is "b". -/
theorem info_interleaved_witness :
    get_info_for_field exReg (fun s => s)
        { form :=
            some { fields := [],
                   groups := [{ name := "fsA", label := "A",
                                fields := [mkField "b"] },
                              { name := "b", label := "B", fields := [] }] },
          title := "T", view_methods := [] } "b" =
      info_go exReg "b" [{ id := "fsA", title := "A", fields := [mkField "b"] }] ∧
    ∃ p, info_go exReg "b"
        [{ id := "fsA", title := "A", fields := [mkField "b"] }] =
      .ok (.fieldInfo p) :=
  info_interleaved_matching exReg (fun s => s) "fsA" "A" [mkField "b"] "b" "B"
    [] "T" [] (by decide) ⟨mkField "b", List.mem_singleton.mpr rfl, rfl⟩
    (fun f _ => rfl)

end PloneRestapi
